import Mathlib

/-!
Verification of the segmented commit-log storage engine in src/src/log/
(store.rs, index.rs, segment.rs, log.rs) of samuelorji/rustlog.

The embedding is a shallow in-memory model of the four components:
* a Store is its byte file plus the tracked size field;
* an Index is the memory-mapped byte region plus the tracked size field;
* a Segment pairs one Store and one Index with base/next offsets;
* a Log is the config, the active-segment index and the segment list.

Machine integers are modelled as Nat.  Where a u64/u32 wrap is actually
reachable in the source (release-mode arithmetic), the wrap is made explicit:
u64 subtraction (u64sub), the u64 multiplication in Index::read, and the
as-u32 casts.  File-system errors, mmap flushes and directory handling are
not modelled; the theorems below quantify over in-memory states and exclude
the out-of-bounds panics of Vec indexing through their hypotheses.
-/

def U32 : Nat := 4294967296

def U64 : Nat := 18446744073709551616

/-- Wrapping u64 subtraction: for a, b < U64 this is release-mode `a - b`. -/
def u64sub (a b : Nat) : Nat := (a + U64 - b) % U64

/-- Big-endian fixed-width byte encoding, as written by
byteorder::BigEndian::write_u32 / write_u64 (w bytes of n mod 256^w). -/
def beBytes : Nat → Nat → List Nat
  | 0, _ => []
  | w + 1, n => beBytes w (n / 256) ++ [n % 256]

/-- Big-endian read, as byteorder::BigEndian::read_u32 / read_u64. -/
def beRead (bs : List Nat) : Nat := bs.foldl (fun acc b => acc * 256 + b) 0

/-- Little-endian base-128 varint, written with structural recursion on a
fuel argument so that it computes definitionally; the fuel n is always enough
because the argument at least halves each step. -/
def varintAux : Nat → Nat → List Nat
  | 0, n => [n % 128]
  | fuel + 1, n =>
    if n < 128 then [n] else (n % 128 + 128) :: varintAux fuel (n / 128)

/-- Little-endian base-128 varint (protobuf wire format). -/
def varint (n : Nat) : List Nat := varintAux n n

lemma varintAux_congr :
    ∀ fuel1 fuel2 n, n ≤ fuel1 → n ≤ fuel2 →
      varintAux fuel1 n = varintAux fuel2 n := by
  intro fuel1
  induction fuel1 with
  | zero =>
    intro fuel2 n h1 h2
    have hn : n = 0 := by omega
    subst hn
    cases fuel2 <;> simp [varintAux]
  | succ fuel ih =>
    intro fuel2 n h1 h2
    by_cases hn : n < 128
    · cases fuel2 with
      | zero =>
        have hn0 : n = 0 := by omega
        subst hn0
        simp [varintAux]
      | succ k => simp [varintAux, hn]
    · cases fuel2 with
      | zero => omega
      | succ k =>
        simp only [varintAux, hn, if_false]
        have hd : n / 128 ≤ fuel := by
          have := Nat.div_lt_self (show 0 < n by omega)
            (show (1 : Nat) < 128 by omega)
          omega
        have hd2 : n / 128 ≤ k := by
          have := Nat.div_lt_self (show 0 < n by omega)
            (show (1 : Nat) < 128 by omega)
          omega
        rw [ih k (n / 128) hd hd2]

lemma varint_unfold (n : Nat) :
    varint n = if n < 128 then [n] else (n % 128 + 128) :: varint (n / 128) := by
  unfold varint
  by_cases hn : n < 128
  · cases hnn : n with
    | zero => simp [varintAux]
    | succ k =>
      subst hnn
      simp [varintAux, hn]
  · have hpos : n ≠ 0 := by omega
    cases hnn : n with
    | zero => omega
    | succ k =>
      subst hnn
      simp only [varintAux, hn, if_false]
      have hd : (k + 1) / 128 ≤ k := by
        have := Nat.div_lt_self (show 0 < k + 1 by omega)
          (show (1 : Nat) < 128 by omega)
        omega
      rw [varintAux_congr k ((k + 1) / 128) ((k + 1) / 128) hd (le_refl _)]

/-- Parse one varint from the front of a byte list. -/
def readVarint : List Nat → Option (Nat × List Nat)
  | [] => none
  | b :: rest =>
    if b < 128 then some (b, rest)
    else
      match readVarint rest with
      | some (n, r) => some (b % 128 + 128 * n, r)
      | none => none

/-- A record: an opaque byte value and an optional absolute offset
(struct Record of the generated protobuf code: value Vec of u8, offset Option of u64). -/
structure Record where
  value : List Nat
  offset : Option Nat
deriving DecidableEq, Repr

/-- Modelled from the spec: the record wire schema of section 6 (the .proto
definition and the prost-generated encode are not under src/).  The message has
field 1 = value (length-delimited bytes, tag byte 0x0a = 10) and field 2 =
offset (varint u64, tag byte 0x10 = 16), matching the encoded byte counts
asserted in the repository's tests.  The value field is always emitted. -/
def encodeRecord (r : Record) : List Nat :=
  10 :: (varint r.value.length ++ r.value ++
    (match r.offset with
     | none => []
     | some o => 16 :: varint o))

/-- Modelled from the spec: the decoder for the section-6 wire schema
(prost::Message::decode of the generated Record type is not under src/). -/
def decodeRecord (bs : List Nat) : Option Record :=
  match bs with
  | [] => some ⟨[], none⟩
  | 10 :: rest =>
    match readVarint rest with
    | none => none
    | some (len, rest1) =>
      if len ≤ rest1.length then
        match rest1.drop len with
        | [] => some ⟨rest1.take len, none⟩
        | 16 :: rest2 =>
          match readVarint rest2 with
          | some (o, []) => some ⟨rest1.take len, some o⟩
          | _ => none
        | _ => none
      else none
  | 16 :: rest =>
    match readVarint rest with
    | some (o, []) => some ⟨[], some o⟩
    | _ => none
  | _ => none

/-- Configuration (struct SegmentConfig in log.rs; all four fields). -/
structure Config where
  max_index_bytes : Nat
  max_store_bytes : Nat
  initial_offset : Nat
  max_record_size_kb : Nat
deriving DecidableEq, Repr

inductive StoreError
  | StoreFullError
  | StoreEntryNotFound (position : Nat)
  | IOError
deriving DecidableEq, Repr

inductive IndexError
  | IndexFullError
  | IndexEntryNotFound (offset : Nat)
  | IOError
deriving DecidableEq, Repr

inductive SegmentError
  | SegmentPathNotADirectory
  | StoreFull (record : Record)
  | IndexErrors (e : IndexError)
  | StoreErrors (e : StoreError)
  | IOError
  | DecodeError
  | EncodeError
deriving DecidableEq, Repr

inductive LogError
  | InvalidSegmentFile
  | RecordTooLarge
  | ParseIntError
  | IndexErrors (e : IndexError)
  | StoreErrors (e : StoreError)
  | IOError
  | SegmentErrors (e : SegmentError)
deriving DecidableEq, Repr

/-- Store (store.rs): the backing file's bytes plus the tracked size field. -/
structure Store where
  contents : List Nat
  size : Nat
deriving DecidableEq, Repr

/-- Store::new - size is initialised to the file's length. -/
def mkStore (file : List Nat) : Store := ⟨file, file.length⟩

/-- Store::can_store_record: size + (record_len + LEN_WIDTH) < max_store_bytes. -/
def canStoreRecord (cfg : Config) (st : Store) (record_len : Nat) : Bool :=
  decide (st.size + (record_len + 8) < cfg.max_store_bytes)

/-- Store::append: writes the 8-byte big-endian length prefix then the value at
the end of the file; returns ((total_written, position), new store). -/
def Store.append (st : Store) (value : List Nat) : (Nat × Nat) × Store :=
  let position := st.size
  let total_written := value.length + 8
  ((total_written, position),
    ⟨st.contents ++ beBytes 8 value.length ++ value, st.size + total_written⟩)

/-- Byte slice of length len starting at pos (models indexing into the file/mmap). -/
def sliceGet (l : List Nat) (pos len : Nat) : List Nat := (l.drop pos).take len

/-- Store::read: read_exact_at of the 8-byte length at position, then
read_exact_at of that many bytes at position + 8.  A short read is the IO
error that read_exact_at returns. -/
def Store.read (st : Store) (position : Nat) : Except StoreError (List Nat) :=
  if st.contents.length < position + 8 then .error .IOError
  else
    let len_of_record := beRead (sliceGet st.contents position 8)
    if st.contents.length < position + 8 + len_of_record then .error .IOError
    else .ok (sliceGet st.contents (position + 8) len_of_record)

/-- Index (index.rs): the memory-mapped region plus the tracked size field. -/
structure Index where
  mmap : List Nat
  size : Nat
deriving DecidableEq, Repr

/-- File::set_len: truncate or zero-extend the byte list to length n. -/
def setLen (bs : List Nat) (n : Nat) : List Nat :=
  bs.take n ++ List.replicate (n - bs.length) 0

/-- Index::new: size is the file's current length; the file is then extended
(or truncated) to max_index_bytes and memory-mapped. -/
def mkIndex (cfg : Config) (file : List Nat) : Index :=
  ⟨setLen file cfg.max_index_bytes, file.length⟩

/-- Overwrite the bytes of l starting at pos with bs (a direct mmap store). -/
def writeBytesAt (l : List Nat) (pos : Nat) (bs : List Nat) : List Nat :=
  l.take pos ++ bs ++ l.drop (pos + bs.length)

/-- Index::write: full when the mapping cannot hold 12 more bytes, otherwise
writes the 4-byte big-endian relative offset at size and the 8-byte big-endian
position at size + 4, and advances size by 12. -/
def Index.write (i : Index) (record_offset position : Nat) :
    Index × Except IndexError Unit :=
  if i.mmap.length < i.size + 12 then (i, .error .IndexFullError)
  else
    let m1 := writeBytesAt i.mmap i.size (beBytes 4 record_offset)
    let m2 := writeBytesAt m1 (i.size + 4) (beBytes 8 position)
    (⟨m2, i.size + 12⟩, .ok ())

structure IndexEntry where
  record_offset : Nat
  position : Nat
deriving DecidableEq, Repr

/-- Index::read: the byte position in the mapping is index_position * 12
computed in u64 (release-mode wrap made explicit). -/
def Index.read (i : Index) (index_position : Nat) : Option IndexEntry :=
  if i.size = 0 then none
  else
    let position_in_index_file := (index_position * 12) % U64
    if i.size ≤ position_in_index_file then none
    else
      some ⟨beRead (sliceGet i.mmap position_in_index_file 4),
            beRead (sliceGet i.mmap (position_in_index_file + 4) 8)⟩

/-- Index::read_last_entry. -/
def Index.readLastEntry (i : Index) : Option IndexEntry :=
  if i.size = 0 then none
  else i.read (i.size / 12 - 1)

/-- Segment (segment.rs). -/
structure Segment where
  store : Store
  index : Index
  base_offset : Nat
  next_offset : Nat
deriving DecidableEq, Repr

instance : Inhabited Segment := ⟨⟨⟨[], 0⟩, ⟨[], 0⟩, 0, 0⟩⟩

/-- Segment::new on the given store/index file contents.  next_offset is
index.read_last_entry().record_offset + 1 when the index is non-empty, else
base_offset - exactly as the source computes it (the source does not add
base_offset to the relative offset). -/
def mkSegment (cfg : Config) (store_file index_file : List Nat)
    (base_offset : Nat) : Segment :=
  let store := mkStore store_file
  let index := mkIndex cfg index_file
  let next_offset :=
    match index.readLastEntry with
    | some e => e.record_offset + 1
    | none => base_offset
  ⟨store, index, base_offset, next_offset⟩

/-- The offset mutation at the top of Segment::append: the offset is assigned
only when the caller left it unset. -/
def adjustOffset (record : Record) (record_offset : Nat) : Record :=
  if record.offset = none then { record with offset := some record_offset }
  else record

/-- Segment::append. -/
def Segment.append (cfg : Config) (s : Segment) (record : Record) :
    Segment × Except SegmentError Nat :=
  let record_offset := s.next_offset
  let record := adjustOffset record record_offset
  let record_buf := encodeRecord record
  if canStoreRecord cfg s.store record_buf.length = false then
    (s, .error (.StoreFull record))
  else
    let appended := s.store.append record_buf
    let position := appended.1.2
    let store' := appended.2
    let index_offset := (u64sub record_offset s.base_offset) % U32
    match s.index.write index_offset position with
    | (index', .ok _) =>
      (⟨store', index', s.base_offset, s.next_offset + 1⟩, .ok record_offset)
    | (index', .error e) =>
      (⟨store', index', s.base_offset, s.next_offset⟩, .error (.IndexErrors e))

/-- Segment::read. -/
def Segment.read (s : Segment) (offset : Nat) : Except SegmentError Record :=
  let pos := u64sub offset s.base_offset
  match s.index.read pos with
  | some entry =>
    match s.store.read entry.position with
    | .ok bytes =>
      match decodeRecord bytes with
      | some record => .ok record
      | none => .error .DecodeError
    | .error _ => .error (.StoreErrors (.StoreEntryNotFound entry.position))
  | none => .error (.IndexErrors (.IndexEntryNotFound (pos % U32)))

/-- Segment::is_maxed. -/
def Segment.isMaxed (cfg : Config) (s : Segment) : Bool :=
  decide (cfg.max_store_bytes ≤ s.store.size) ||
    decide (cfg.max_index_bytes ≤ s.index.size)

/-- Log (log.rs), minus the directory path. -/
structure Log where
  config : Config
  active_segment : Nat
  segments : List Segment
deriving DecidableEq, Repr

/-- Log::new_segment: a fresh segment directory holds empty store and index
files; the segment is pushed and becomes active. -/
def Log.newSegment (l : Log) (offset : Nat) : Log :=
  let segment := mkSegment l.config [] [] offset
  { l with segments := l.segments ++ [segment],
           active_segment := l.segments.length }

/-- Log::new followed by setup on an empty directory: one segment at
initial_offset. -/
def mkLog (cfg : Config) : Log :=
  Log.newSegment ⟨cfg, 0, []⟩ cfg.initial_offset

/-- The StoreFull arm of Log::append: read next_offset of the (unchanged)
active segment, create a new segment there, retry once on it. -/
def Log.appendRetry (l : Log) (record : Record) :
    Log × Except LogError Nat :=
  let offset := (l.segments.getD l.active_segment default).next_offset
  let l2 := l.newSegment offset
  let seg2 := l2.segments.getD l2.active_segment default
  match Segment.append l2.config seg2 record with
  | (seg2', .ok r) =>
    ({ l2 with segments := l2.segments.set l2.active_segment seg2' }, .ok r)
  | (seg2', .error e) =>
    ({ l2 with segments := l2.segments.set l2.active_segment seg2' },
      .error (.SegmentErrors e))

/-- The Ok arm of Log::append: proactive rollover when the (updated) active
segment is maxed. -/
def Log.afterOk (l : Log) (seg' : Segment) (offset : Nat) :
    Log × Except LogError Nat :=
  let l' := { l with segments := l.segments.set l.active_segment seg' }
  if Segment.isMaxed l.config seg' then (l'.newSegment (offset + 1), .ok offset)
  else (l', .ok offset)

/-- Log::append. -/
def Log.append (l : Log) (record : Record) :
    Log × Except LogError Nat :=
  if l.config.max_record_size_kb < record.value.length then
    (l, .error .RecordTooLarge)
  else
    match Segment.append l.config (l.segments.getD l.active_segment default)
        record with
    | (seg', .ok offset) => Log.afterOk l seg' offset
    | (seg', .error e) =>
      let l1 := { l with segments := l.segments.set l.active_segment seg' }
      match e with
      | .StoreFull record => Log.appendRetry l1 record
      | _ => (l1, .error (.SegmentErrors e))

def segMatches (offset : Nat) (s : Segment) : Bool :=
  decide (s.base_offset ≤ offset) && decide (offset < s.next_offset)

/-- The scan loop of Log::read: first segment with
base_offset ≤ offset < next_offset; the selected index stays 0 when no
segment matches. -/
def findSegmentIdx (offset : Nat) : List Segment → Nat → Nat
  | [], _ => 0
  | s :: rest, i =>
    if segMatches offset s then i else findSegmentIdx offset rest (i + 1)

/-- Log::read. -/
def Log.read (l : Log) (offset : Nat) : Except LogError Record :=
  let active := findSegmentIdx offset l.segments 0
  match (l.segments.getD active default).read offset with
  | .ok r => .ok r
  | .error e => .error (.SegmentErrors e)

/-- Log::lowest_offset. -/
def Log.lowestOffset (l : Log) : Nat :=
  (l.segments.getD 0 default).base_offset

/-- Log::highest_offset: segments.last().next_offset - 1 in u64 (the
subtraction wraps in release mode when next_offset = 0), or 0 if there are no
segments. -/
def Log.highestOffset (l : Log) : Nat :=
  match l.segments.getLast? with
  | some s => u64sub s.next_offset 1
  | none => 0

/-- Vec::remove: panics (none) when the index is out of bounds. -/
def vecRemove (segs : List Segment) (i : Nat) : Option (List Segment) :=
  if i < segs.length then some (segs.eraseIdx i) else none

/-- Log::truncate: first pass collects the indices of segments with
next_offset ≤ lowest + 1 (and removes their files); second pass calls
Vec::remove on each collected index in order, while the vector shifts. -/
def Log.truncate (l : Log) (lowest : Nat) : Option Log :=
  let to_remove :=
    (l.segments.enum.filter (fun p => decide (p.2.next_offset ≤ lowest + 1))).map
      Prod.fst
  (to_remove.foldl (fun acc i => acc.bind (fun segs => vecRemove segs i))
      (some l.segments)).map
    (fun segs => { l with segments := segs })

/-- A run of Log::append calls, stopping at the first error. -/
def Log.runAppends (l : Log) :
    List Record → Except LogError (List Nat × Log)
  | [] => .ok ([], l)
  | r :: rs =>
    match l.append r with
    | (l', .ok o) => (l'.runAppends rs).map (fun pr => (o :: pr.1, pr.2))
    | (_, .error e) => .error e

/-- Well-formedness of a segment's in-memory state: the tracked store size
agrees with the file, next_offset counts the index entries from base_offset,
and the u64-valued fields are in u64 range. -/
def WFSegment (s : Segment) : Prop :=
  s.store.size = s.store.contents.length ∧
  s.store.size < U64 ∧
  s.base_offset ≤ s.next_offset ∧
  s.next_offset < U64 ∧
  s.index.size = 12 * (s.next_offset - s.base_offset) ∧
  s.index.mmap.length < U64

instance (s : Segment) : Decidable (WFSegment s) := by
  unfold WFSegment; infer_instance

/-- Well-formedness of a log state: at least one segment, the active segment
is the last, every segment is well formed, segments are ordered
(next_offset of an earlier segment never exceeds base_offset of a later one),
and the config fields fit their integer types. -/
def WFLog (l : Log) : Prop :=
  l.segments ≠ [] ∧
  l.active_segment = l.segments.length - 1 ∧
  (∀ s ∈ l.segments, WFSegment s) ∧
  l.segments.Pairwise (fun a b => a.next_offset ≤ b.base_offset) ∧
  l.config.max_record_size_kb < 65536 ∧
  l.config.max_index_bytes < U64

instance : DecidableRel (fun a b : Segment => a.next_offset ≤ b.base_offset) :=
  fun _ _ => Nat.decLe _ _

instance (l : Log) : Decidable (WFLog l) := by
  unfold WFLog; infer_instance

/-- The offset field of a record handed to the log is a u64. -/
def RecordOK (r : Record) : Prop := r.offset.getD 0 < U64

instance (r : Record) : Decidable (RecordOK r) := by
  unfold RecordOK; infer_instance

/-! ## Byte-level lemmas -/

lemma beBytes_length (w n : Nat) : (beBytes w n).length = w := by
  induction w generalizing n with
  | zero => simp [beBytes]
  | succ w ih => simp [beBytes, ih]

lemma beRead_beBytes (w n : Nat) : beRead (beBytes w n) = n % 256 ^ w := by
  induction w generalizing n with
  | zero => simp [beBytes, beRead, Nat.mod_one]
  | succ w ih =>
    have hfold : beRead (beBytes w (n / 256) ++ [n % 256]) =
        beRead (beBytes w (n / 256)) * 256 + n % 256 := by
      simp [beRead, List.foldl_append]
    have hmod : n % (256 * 256 ^ w) = n % 256 + 256 * (n / 256 % 256 ^ w) :=
      Nat.mod_mul
    have hpow : (256 : Nat) ^ (w + 1) = 256 * 256 ^ w := by ring
    rw [beBytes, hfold, ih, hpow, hmod]
    omega

lemma beRead_beBytes_of_lt (w n : Nat) (h : n < 256 ^ w) :
    beRead (beBytes w n) = n := by
  rw [beRead_beBytes, Nat.mod_eq_of_lt h]

lemma readVarint_varint (n : Nat) (rest : List Nat) :
    readVarint (varint n ++ rest) = some (n, rest) := by
  induction n using Nat.strong_induction_on with
  | _ n ih =>
    by_cases h : n < 128
    · rw [varint_unfold]
      simp [h, readVarint]
    · rw [varint_unfold]
      simp only [h, if_false]
      have h2 : ¬(n % 128 + 128 < 128) := by omega
      have ihd := ih (n / 128) (Nat.div_lt_self (by omega) (by omega))
      simp only [List.cons_append, readVarint, h2, if_false, List.append_eq]
      rw [ihd]
      have heq : n % 128 + 128 * (n / 128) = n := by omega
      simp [heq]

lemma varint_length_le (k n : Nat) (h : n < 128 ^ (k + 1)) :
    (varint n).length ≤ k + 1 := by
  induction k generalizing n with
  | zero =>
    rw [varint_unfold]
    have hn : n < 128 := by simpa using h
    simp [hn]
  | succ k ih =>
    by_cases hn : n < 128
    · rw [varint_unfold]; simp [hn]
    · rw [varint_unfold]
      simp only [hn, if_false, List.length_cons]
      have hdiv : n / 128 < 128 ^ (k + 1) := by
        rw [Nat.div_lt_iff_lt_mul (by omega)]
        calc n < 128 ^ (k + 2) := h
        _ = 128 ^ (k + 1) * 128 := by ring
      have := ih (n / 128) hdiv
      omega

lemma decodeRecord_encodeRecord (r : Record) :
    decodeRecord (encodeRecord r) = some r := by
  rcases r with ⟨v, o⟩
  cases o with
  | none =>
    show decodeRecord (10 :: (varint v.length ++ v ++ [])) = _
    rw [List.append_nil]
    simp only [decodeRecord, readVarint_varint]
    simp [List.take_left' rfl, List.drop_left' rfl]
  | some o =>
    show decodeRecord (10 :: (varint v.length ++ v ++ (16 :: varint o))) = _
    rw [List.append_assoc]
    simp only [decodeRecord, readVarint_varint]
    have hlen : v.length ≤ (v ++ 16 :: varint o).length := by
      simp
    have hdrop : (v ++ 16 :: varint o).drop v.length = 16 :: varint o :=
      List.drop_left' rfl
    have htake : (v ++ 16 :: varint o).take v.length = v :=
      List.take_left' rfl
    simp only [hlen, if_true, hdrop, htake]
    have : readVarint (varint o ++ []) = some (o, []) := readVarint_varint o []
    rw [List.append_nil] at this
    simp [this]

/-! ## Slice and write lemmas -/

lemma writeBytesAt_length (l bs : List Nat) (pos : Nat)
    (h : pos + bs.length ≤ l.length) :
    (writeBytesAt l pos bs).length = l.length := by
  simp [writeBytesAt]
  omega

lemma sliceGet_writeBytesAt_self (l bs : List Nat) (pos : Nat)
    (h : pos + bs.length ≤ l.length) :
    sliceGet (writeBytesAt l pos bs) pos bs.length = bs := by
  unfold sliceGet writeBytesAt
  rw [List.append_assoc,
    List.drop_left' (by simp; omega : (l.take pos).length = pos),
    List.take_left]

lemma sliceGet_writeBytesAt_before (l bs : List Nat) (pos p2 k : Nat)
    (h : p2 + k ≤ pos) (hp : pos ≤ l.length) :
    sliceGet (writeBytesAt l pos bs) p2 k = sliceGet l p2 k := by
  unfold sliceGet writeBytesAt
  have hlt : (l.take pos).length = pos := by simp; omega
  rw [List.append_assoc,
    List.drop_append_of_le_length (by omega : p2 ≤ (l.take pos).length),
    List.take_append_of_le_length (by simp; omega : k ≤ ((l.take pos).drop p2).length),
    List.drop_take, List.take_take]
  congr 1
  omega

lemma sliceGet_append_right (xs ys : List Nat) (k : Nat) :
    sliceGet (xs ++ ys) xs.length k = ys.take k := by
  simp [sliceGet, List.drop_left]

lemma sliceGet_add (l : List Nat) (p a b : Nat) :
    sliceGet l p (a + b) = sliceGet l p a ++ sliceGet l (p + a) b := by
  simp [sliceGet, List.take_add, List.drop_drop]

/-! ## u64 arithmetic lemmas -/

lemma u64sub_eq_sub (a b : Nat) (hba : b ≤ a) (ha : a < U64) :
    u64sub a b = a - b := by
  unfold u64sub
  have h1 : a + U64 - b = (a - b) + U64 := by omega
  rw [h1, Nat.add_mod_right, Nat.mod_eq_of_lt (by omega)]

/-! ## getD lemmas -/

lemma getD_set_eq {α : Type} (l : List α) (i : Nat) (a d : α)
    (h : i < l.length) : (l.set i a).getD i d = a := by
  rw [List.getD_eq_getElem?_getD, List.getElem?_set_self (by omega)]
  rfl

lemma getD_set_ne {α : Type} (l : List α) (i j : Nat) (a d : α)
    (h : i ≠ j) : (l.set i a).getD j d = l.getD j d := by
  rw [List.getD_eq_getElem?_getD, List.getElem?_set_ne h,
    ← List.getD_eq_getElem?_getD]

lemma getD_append_lt {α : Type} (xs ys : List α) (i : Nat) (d : α)
    (h : i < xs.length) : (xs ++ ys).getD i d = xs.getD i d := by
  rw [List.getD_eq_getElem?_getD, List.getElem?_append_left h,
    ← List.getD_eq_getElem?_getD]

lemma getD_append_length {α : Type} (xs ys : List α) (a d : α) :
    (xs ++ a :: ys).getD xs.length d = a := by
  rw [List.getD_eq_getElem?_getD, List.getElem?_append_right (le_refl _)]
  simp

lemma getD_eq_getElem {α : Type} (l : List α) (i : Nat) (d : α)
    (h : i < l.length) : l.getD i d = l[i] := by
  rw [List.getD_eq_getElem?_getD, List.getElem?_eq_getElem h]
  rfl

instance {ε α : Type} [DecidableEq ε] [DecidableEq α] :
    DecidableEq (Except ε α)
  | .error e, .error f =>
    if h : e = f then .isTrue (by rw [h])
    else .isFalse (fun hc => by cases hc; exact h rfl)
  | .error _, .ok _ => .isFalse (fun hc => by cases hc)
  | .ok _, .error _ => .isFalse (fun hc => by cases hc)
  | .ok a, .ok b =>
    if h : a = b then .isTrue (by rw [h])
    else .isFalse (fun hc => by cases hc; exact h rfl)

/-! ## Record encoding bounds -/

lemma adjustOffset_value (r : Record) (n : Nat) :
    (adjustOffset r n).value = r.value := by
  unfold adjustOffset; split <;> rfl

lemma adjustOffset_offset_lt (r : Record) (n : Nat) (ho : RecordOK r)
    (hn : n < U64) : (adjustOffset r n).offset.getD 0 < U64 := by
  unfold adjustOffset RecordOK at *
  rcases r with ⟨v, o⟩
  cases o <;> simp_all

lemma encodeRecord_length_lt (r : Record) (hv : r.value.length < 65536)
    (ho : r.offset.getD 0 < U64) : (encodeRecord r).length < U64 := by
  unfold encodeRecord
  rcases r with ⟨v, o⟩
  have h1 : (varint v.length).length ≤ 3 := by
    refine varint_length_le 2 v.length (by simp at hv ⊢; omega)
  cases o with
  | none =>
    simp only [List.length_cons, List.length_append]
    unfold U64
    simp at hv ⊢
    omega
  | some x =>
    have h2 : (varint x).length ≤ 10 := by
      refine varint_length_le 9 x ?_
      have : U64 < 128 ^ 10 := by decide
      simp only [Option.getD_some] at ho
      omega
    simp only [List.length_cons, List.length_append]
    unfold U64 at *
    simp at hv ⊢
    omega

/-! ## Segment.append characterizations -/

lemma segment_append_ok_elim (cfg : Config) (s : Segment) (r : Record)
    (s' : Segment) (o : Nat)
    (h : Segment.append cfg s r = (s', .ok o)) :
    o = s.next_offset ∧
    canStoreRecord cfg s.store
      (encodeRecord (adjustOffset r s.next_offset)).length = true ∧
    s.index.size + 12 ≤ s.index.mmap.length ∧
    s' = ⟨⟨s.store.contents ++
            beBytes 8 (encodeRecord (adjustOffset r s.next_offset)).length ++
            encodeRecord (adjustOffset r s.next_offset),
          s.store.size +
            ((encodeRecord (adjustOffset r s.next_offset)).length + 8)⟩,
         ⟨writeBytesAt
            (writeBytesAt s.index.mmap s.index.size
              (beBytes 4 ((u64sub s.next_offset s.base_offset) % U32)))
            (s.index.size + 4) (beBytes 8 s.store.size),
          s.index.size + 12⟩,
         s.base_offset, s.next_offset + 1⟩ := by
  unfold Segment.append at h
  by_cases hc : canStoreRecord cfg s.store
      (encodeRecord (adjustOffset r s.next_offset)).length = false
  · simp only [hc, if_true] at h
    cases h
  · have hc' : canStoreRecord cfg s.store
        (encodeRecord (adjustOffset r s.next_offset)).length = true := by
      revert hc
      cases canStoreRecord cfg s.store
        (encodeRecord (adjustOffset r s.next_offset)).length <;> simp
    simp only [hc', Bool.true_eq_false, if_false] at h
    unfold Store.append at h
    unfold Index.write at h
    by_cases hfull : s.index.mmap.length < s.index.size + 12
    · simp only [hfull, if_true] at h
      cases h
    · simp only [hfull, if_false] at h
      simp only [Prod.mk.injEq] at h
      obtain ⟨hs, ho2⟩ := h
      cases ho2
      exact ⟨rfl, hc', by omega, hs.symm⟩

lemma segment_append_storefull_elim (cfg : Config) (s : Segment) (r : Record)
    (s' : Segment) (rec : Record)
    (h : Segment.append cfg s r = (s', .error (.StoreFull rec))) :
    s' = s ∧ rec = adjustOffset r s.next_offset ∧
    canStoreRecord cfg s.store
      (encodeRecord (adjustOffset r s.next_offset)).length = false := by
  unfold Segment.append at h
  by_cases hc : canStoreRecord cfg s.store
      (encodeRecord (adjustOffset r s.next_offset)).length = false
  · simp only [hc, if_true, Prod.mk.injEq] at h
    obtain ⟨h1, h2⟩ := h
    cases h2
    exact ⟨h1.symm, rfl, hc⟩
  · have hc' : canStoreRecord cfg s.store
        (encodeRecord (adjustOffset r s.next_offset)).length = true := by
      revert hc
      cases canStoreRecord cfg s.store
        (encodeRecord (adjustOffset r s.next_offset)).length <;> simp
    simp only [hc', Bool.true_eq_false, if_false] at h
    unfold Store.append at h
    unfold Index.write at h
    by_cases hfull : s.index.mmap.length < s.index.size + 12
    · simp only [hfull, if_true, Prod.mk.injEq] at h
      obtain ⟨-, h2⟩ := h
      cases h2
    · simp only [hfull, if_false, Prod.mk.injEq] at h
      obtain ⟨-, h2⟩ := h
      cases h2
/-! ## Read-back lemmas -/

lemma store_read_appended (old buf : List Nat) (hbuf : buf.length < U64) :
    Store.read ⟨old ++ beBytes 8 buf.length ++ buf, old.length + (buf.length + 8)⟩
      old.length = .ok buf := by
  unfold Store.read
  have hlen : (old ++ beBytes 8 buf.length ++ buf).length =
      old.length + 8 + buf.length := by
    simp [beBytes_length]
    omega
  have h1 : ¬((old ++ beBytes 8 buf.length ++ buf).length < old.length + 8) := by
    omega
  simp only [h1, if_false]
  have hslice8 : sliceGet (old ++ beBytes 8 buf.length ++ buf) old.length 8 =
      beBytes 8 buf.length := by
    rw [List.append_assoc, sliceGet_append_right,
      List.take_append_of_le_length (by simp [beBytes_length]),
      List.take_of_length_le (by simp [beBytes_length])]
  have hread : beRead (sliceGet (old ++ beBytes 8 buf.length ++ buf) old.length 8)
      = buf.length := by
    rw [hslice8, beRead_beBytes_of_lt]
    have : (256 : Nat) ^ 8 = U64 := by decide
    omega
  simp only [hread]
  have h2 : ¬((old ++ beBytes 8 buf.length ++ buf).length <
      old.length + 8 + buf.length) := by omega
  simp only [h2, if_false]
  have hslicebuf : sliceGet (old ++ beBytes 8 buf.length ++ buf)
      (old.length + 8) buf.length = buf := by
    have hol : (old ++ beBytes 8 buf.length).length = old.length + 8 := by
      simp [beBytes_length]
    calc sliceGet (old ++ beBytes 8 buf.length ++ buf) (old.length + 8) buf.length
        = ((old ++ beBytes 8 buf.length ++ buf).drop
            (old ++ beBytes 8 buf.length).length).take buf.length := by
          rw [hol]; rfl
      _ = buf := by rw [List.drop_left, List.take_length]
  rw [hslicebuf]

lemma index_read_written (mmap : List Nat) (sz ro pos k : Nat)
    (hsz : sz + 12 ≤ mmap.length) (hU : mmap.length < U64)
    (hk : k * 12 = sz) (hro : ro < U32) (hpos : pos < U64) :
    Index.read ⟨writeBytesAt (writeBytesAt mmap sz (beBytes 4 ro)) (sz + 4)
        (beBytes 8 pos), sz + 12⟩ k = some ⟨ro, pos⟩ := by
  unfold Index.read
  have hm1len : (writeBytesAt mmap sz (beBytes 4 ro)).length = mmap.length := by
    rw [writeBytesAt_length]
    simp [beBytes_length]
    omega
  have h0 : ¬(sz + 12 = 0) := by omega
  simp only [h0, if_false]
  have hpif : (k * 12) % U64 = sz := by
    rw [hk, Nat.mod_eq_of_lt (by omega)]
  simp only [hpif]
  have h1 : ¬(sz + 12 ≤ sz) := by omega
  simp only [h1, if_false]
  have hself4 := sliceGet_writeBytesAt_self mmap (beBytes 4 ro) sz
    (by rw [beBytes_length]; omega)
  rw [beBytes_length] at hself4
  have hself8 := sliceGet_writeBytesAt_self (writeBytesAt mmap sz (beBytes 4 ro))
    (beBytes 8 pos) (sz + 4) (by rw [hm1len, beBytes_length]; omega)
  rw [beBytes_length] at hself8
  have hslice4 : sliceGet (writeBytesAt (writeBytesAt mmap sz (beBytes 4 ro))
      (sz + 4) (beBytes 8 pos)) sz 4 = beBytes 4 ro := by
    rw [sliceGet_writeBytesAt_before _ _ _ _ _ (by omega)
        (by rw [hm1len]; omega)]
    exact hself4
  have hslice8 : sliceGet (writeBytesAt (writeBytesAt mmap sz (beBytes 4 ro))
      (sz + 4) (beBytes 8 pos)) (sz + 4) 8 = beBytes 8 pos := hself8
  rw [hslice4, hslice8, beRead_beBytes_of_lt, beRead_beBytes_of_lt]
  · have : (256 : Nat) ^ 8 = U64 := by decide
    omega
  · have : (256 : Nat) ^ 4 = U32 := by decide
    omega

lemma segment_append_read (cfg : Config) (s : Segment) (r : Record)
    (s' : Segment) (o : Nat)
    (hWF : WFSegment s) (hv : r.value.length < 65536) (ho : RecordOK r)
    (h : Segment.append cfg s r = (s', .ok o)) :
    Segment.read s' o = .ok (adjustOffset r s.next_offset) := by
  obtain ⟨ho2, hc, hidx, hs'⟩ := segment_append_ok_elim cfg s r s' o h
  obtain ⟨hw1, hw2, hw3, hw4, hw5, hw6⟩ := hWF
  subst hs'
  subst ho2
  have hbuf : (encodeRecord (adjustOffset r s.next_offset)).length < U64 :=
    encodeRecord_length_lt _ (by rw [adjustOffset_value]; exact hv)
      (adjustOffset_offset_lt r _ ho hw4)
  have hpos' : u64sub s.next_offset s.base_offset =
      s.next_offset - s.base_offset := u64sub_eq_sub _ _ hw3 hw4
  have hro : (u64sub s.next_offset s.base_offset) % U32 < U32 :=
    Nat.mod_lt _ (by unfold U32; omega)
  have hread_idx := index_read_written s.index.mmap s.index.size
    ((u64sub s.next_offset s.base_offset) % U32) s.store.size
    (s.next_offset - s.base_offset) hidx hw6 (by omega) hro hw2
  unfold Segment.read
  rw [hpos', hw1] at hread_idx
  rw [hpos', hw1]
  simp only [hread_idx]
  simp only [store_read_appended _ _ hbuf, decodeRecord_encodeRecord]

/-! ## Scan-loop lemmas -/

lemma findSegmentIdx_first (off : Nat) (segs : List Segment) :
    ∀ (j : Nat) (hj : j < segs.length),
      segMatches off segs[j] = true →
      (∀ k (hk : k < segs.length), k < j → segMatches off segs[k] = false) →
      ∀ i, findSegmentIdx off segs i = i + j := by
  induction segs with
  | nil => intro j hj; simp at hj
  | cons a t ih =>
    intro j hj hmatch hbefore i
    cases j with
    | zero =>
      simp only [List.getElem_cons_zero] at hmatch
      unfold findSegmentIdx
      simp [hmatch]
    | succ j =>
      have ha : segMatches off a = false := by
        have := hbefore 0 (by simp) (by omega)
        simpa using this
      unfold findSegmentIdx
      simp only [ha, Bool.false_eq_true, if_false]
      have hrec := ih j (by simpa using hj)
        (by simpa using hmatch)
        (fun k hk hkj => by
          have := hbefore (k + 1) (by simp; omega) (by omega)
          simpa using this)
        (i + 1)
      rw [hrec]
      omega

lemma findSegmentIdx_none (off : Nat) (segs : List Segment)
    (h : ∀ s ∈ segs, segMatches off s = false) :
    ∀ i, findSegmentIdx off segs i = 0 := by
  induction segs with
  | nil => intro i; rfl
  | cons a t ih =>
    intro i
    unfold findSegmentIdx
    have ha : segMatches off a = false := h a (by simp)
    simp only [ha, Bool.false_eq_true, if_false]
    exact ih (fun s hs => h s (by simp [hs])) (i + 1)

/-! ## Small structural lemmas -/

lemma mkSegment_empty (cfg : Config) (b : Nat) :
    mkSegment cfg [] [] b =
      ⟨⟨[], 0⟩, ⟨List.replicate cfg.max_index_bytes 0, 0⟩, b, b⟩ := by
  unfold mkSegment mkStore mkIndex setLen Index.readLastEntry
  simp

lemma WFSegment_empty (cfg : Config) (b : Nat) (hb : b < U64)
    (hmax : cfg.max_index_bytes < U64) :
    WFSegment (mkSegment cfg [] [] b) := by
  rw [mkSegment_empty]
  refine ⟨rfl, ?_, le_refl b, hb, ?_, ?_⟩
  · show (0 : Nat) < U64
    unfold U64
    omega
  · show (0 : Nat) = 12 * (b - b)
    omega
  · show (List.replicate cfg.max_index_bytes 0).length < U64
    simpa

lemma adjustOffset_adjustOffset (r : Record) (n n2 : Nat) :
    adjustOffset (adjustOffset r n) n2 = adjustOffset r n := by
  unfold adjustOffset
  rcases r with ⟨v, o⟩
  cases o <;> simp

lemma newSegment_segments (x : Log) (b : Nat) :
    (Log.newSegment x b).segments = x.segments ++ [mkSegment x.config [] [] b] :=
  rfl

lemma newSegment_active (x : Log) (b : Nat) :
    (Log.newSegment x b).active_segment = x.segments.length := rfl

lemma newSegment_config (x : Log) (b : Nat) :
    (Log.newSegment x b).config = x.config := rfl

lemma log_read_at (l' : Log) (j O : Nat) (hj : j < l'.segments.length)
    (hmatch : segMatches O l'.segments[j] = true)
    (hbefore : ∀ k (hk : k < l'.segments.length), k < j →
      segMatches O l'.segments[k] = false) :
    Log.read l' O =
      match (l'.segments[j]).read O with
      | .ok r => .ok r
      | .error e => .error (.SegmentErrors e) := by
  unfold Log.read
  rw [findSegmentIdx_first O l'.segments j hj hmatch hbefore 0, Nat.zero_add]
  simp only [getD_eq_getElem _ _ _ hj]

/-- C1: after a successful Log::append of a record with value v that returns
offset O, Log::read(O) on the resulting log succeeds and returns a record
whose value equals v. -/
theorem append_then_read (l : Log) (r : Record) (l' : Log) (O : Nat)
    (hWF : WFLog l) (hr : RecordOK r)
    (h : l.append r = (l', .ok O)) :
    ∃ rec, l'.read O = .ok rec ∧ rec.value = r.value := by
  obtain ⟨hne, hact, hsegs, hpair, hcfg1, hcfg2⟩ := hWF
  have hnpos : 0 < l.segments.length := List.length_pos.mpr hne
  have hlt : l.active_segment < l.segments.length := by omega
  have hgetD : l.segments.getD l.active_segment default =
      l.segments[l.active_segment] := getD_eq_getElem _ _ _ hlt
  have hWFseg : WFSegment l.segments[l.active_segment] :=
    hsegs _ (List.getElem_mem hlt)
  obtain ⟨hst1, hst2, hbn, hnU, hisz, himl⟩ := hWFseg
  unfold Log.append at h
  by_cases hsz : l.config.max_record_size_kb < r.value.length
  · rw [if_pos hsz] at h
    exact absurd (congrArg Prod.snd h) (by simp)
  rw [if_neg hsz] at h
  have hv : r.value.length < 65536 := by omega
  rw [hgetD] at h
  rcases hres : Segment.append l.config l.segments[l.active_segment] r
    with ⟨seg', res⟩
  rw [hres] at h
  cases res with
  | ok offset =>
    have hA : Log.afterOk l seg' offset = (l', .ok O) := h
    clear h
    obtain ⟨hoeq, hcan, hwb, hseq⟩ := segment_append_ok_elim _ _ _ _ _ hres
    have hread := segment_append_read _ _ _ _ _
      ⟨hst1, hst2, hbn, hnU, hisz, himl⟩ hv hr hres
    subst hoeq
    have hbase' : seg'.base_offset = l.segments[l.active_segment].base_offset := by
      rw [hseq]
    have hnext' : seg'.next_offset =
        l.segments[l.active_segment].next_offset + 1 := by rw [hseq]
    have hmatchj : segMatches l.segments[l.active_segment].next_offset seg'
        = true := by
      unfold segMatches
      rw [hbase', hnext']
      simp only [Bool.and_eq_true, decide_eq_true_eq]
      exact ⟨hbn, by omega⟩
    have hbeforek : ∀ k, k < l.segments.length → k < l.active_segment →
        segMatches l.segments[l.active_segment].next_offset
          (l.segments.getD k default) = false := by
      intro k hk hkj
      rw [getD_eq_getElem _ _ _ hk]
      have hp := List.pairwise_iff_getElem.mp hpair k l.active_segment hk hlt hkj
      have hWFk := hsegs _ (List.getElem_mem hk)
      have hnk : ¬(l.segments[l.active_segment].next_offset <
          l.segments[k].next_offset) := by omega
      unfold segMatches
      rw [decide_eq_false hnk, Bool.and_false]
    simp only [Log.afterOk] at hA
    by_cases hmax : Segment.isMaxed l.config seg' = true
    · rw [if_pos hmax] at hA
      injection hA with h1 h2
      injection h2 with h2
      subst h2
      subst h1
      refine ⟨adjustOffset r l.segments[l.active_segment].next_offset, ?_,
        adjustOffset_value _ _⟩
      set ls := l.segments.set l.active_segment seg' with hls
      set ns := mkSegment l.config [] []
        (l.segments[l.active_segment].next_offset + 1) with hns
      have hlslen : ls.length = l.segments.length := by
        rw [hls, List.length_set]
      have happlen : (ls ++ [ns]).length = l.segments.length + 1 := by
        simp [hlslen]
      set L : Log := Log.newSegment { l with segments := ls }
        (l.segments[l.active_segment].next_offset + 1) with hL
      have hjlt : l.active_segment < L.segments.length := by
        show l.active_segment < (ls ++ [ns]).length
        omega
      have hjget : L.segments[l.active_segment] = seg' := by
        have hjlt2 : l.active_segment < (ls ++ [ns]).length := by omega
        show (ls ++ [ns])[l.active_segment] = seg'
        rw [List.getElem_append_left (by omega)]
        simp only [hls]
        exact List.getElem_set_self (by simpa using hlt)
      have hm : segMatches l.segments[l.active_segment].next_offset
          (L.segments[l.active_segment]) = true := by
        rw [hjget]; exact hmatchj
      have hb : ∀ k, (hk : k < L.segments.length) → k < l.active_segment →
          segMatches l.segments[l.active_segment].next_offset
            (L.segments[k]) = false := by
        intro k hk hkj
        have hk' : k < l.segments.length := by
          have : k < (ls ++ [ns]).length := hk
          omega
        have hkls : k < ls.length := by omega
        have heq : L.segments[k] = l.segments[k] := by
          show (ls ++ [ns])[k] = l.segments[k]
          rw [List.getElem_append_left hkls]
          simp only [hls]
          exact List.getElem_set_ne (by omega) (by simpa using hk')
        rw [heq]
        have := hbeforek k hk' hkj
        rwa [getD_eq_getElem _ _ _ hk'] at this
      have hrd := log_read_at L l.active_segment
        l.segments[l.active_segment].next_offset hjlt hm hb
      rw [hrd, hjget, hread]
    · rw [if_neg hmax] at hA
      injection hA with h1 h2
      injection h2 with h2
      subst h2
      subst h1
      refine ⟨adjustOffset r l.segments[l.active_segment].next_offset, ?_,
        adjustOffset_value _ _⟩
      set ls := l.segments.set l.active_segment seg' with hls
      have hlslen : ls.length = l.segments.length := by
        rw [hls, List.length_set]
      set L : Log := { l with segments := ls } with hL
      have hjlt : l.active_segment < L.segments.length := by
        show l.active_segment < ls.length
        omega
      have hjget : L.segments[l.active_segment] = seg' := by
        show ls[l.active_segment] = seg'
        simp only [hls]
        exact List.getElem_set_self (by simpa using hlt)
      have hm : segMatches l.segments[l.active_segment].next_offset
          (L.segments[l.active_segment]) = true := by
        rw [hjget]; exact hmatchj
      have hb : ∀ k, (hk : k < L.segments.length) → k < l.active_segment →
          segMatches l.segments[l.active_segment].next_offset
            (L.segments[k]) = false := by
        intro k hk hkj
        have hk' : k < l.segments.length := by
          have : k < ls.length := hk
          omega
        have heq : L.segments[k] = l.segments[k] := by
          show ls[k] = l.segments[k]
          simp only [hls]
          exact List.getElem_set_ne (by omega) (by simpa using hk')
        rw [heq]
        have := hbeforek k hk' hkj
        rwa [getD_eq_getElem _ _ _ hk'] at this
      have hrd := log_read_at L l.active_segment
        l.segments[l.active_segment].next_offset hjlt hm hb
      rw [hrd, hjget, hread]
  | error e =>
    cases e with
    | StoreFull rec =>
      have hA : Log.appendRetry
          { l with segments := l.segments.set l.active_segment seg' } rec
          = (l', .ok O) := h
      clear h
      obtain ⟨hseq, hrecdef, hcanf⟩ := segment_append_storefull_elim _ _ _ _ _ hres
      subst hseq
      subst hrecdef
      simp only [Log.appendRetry, Log.newSegment] at hA
      rw [getD_set_eq _ _ _ _ hlt] at hA
      rw [List.length_set] at hA
      set m := l.segments[l.active_segment].next_offset with hm0
      set ls := l.segments.set l.active_segment l.segments[l.active_segment]
        with hls
      have hlslen : ls.length = l.segments.length := by
        rw [hls, List.length_set]
      set ns := mkSegment l.config [] [] m with hns
      have hseg2 : ((ls ++ [ns]).getD l.segments.length default) = ns := by
        rw [← hlslen]
        exact getD_append_length ls [] ns default
      rw [hseg2] at hA
      have hnsWF : WFSegment ns := WFSegment_empty l.config m hnU hcfg2
      have hnsnext : ns.next_offset = m := by rw [hns, mkSegment_empty]
      have hnsbase : ns.base_offset = m := by rw [hns, mkSegment_empty]
      rcases hres2 : Segment.append l.config ns
          (adjustOffset r m) with ⟨seg2', res2⟩
      rw [hres2] at hA
      cases res2 with
      | ok r2 =>
        have hA2 : (Log.mk l.config l.segments.length
            ((ls ++ [ns]).set l.segments.length seg2'),
            (Except.ok r2 : Except LogError Nat)) = (l', .ok O) := hA
        clear hA
        obtain ⟨ho2, hcan2, hwb2, hseq2⟩ := segment_append_ok_elim _ _ _ _ _ hres2
        have hr2ok : RecordOK (adjustOffset r m) :=
          adjustOffset_offset_lt r m hr hnU
        have hv2 : (adjustOffset r m).value.length < 65536 := by
          rw [adjustOffset_value]; exact hv
        have hread2 := segment_append_read _ _ _ _ _ hnsWF hv2 hr2ok hres2
        rw [hnsnext, adjustOffset_adjustOffset] at hread2
        injection hA2 with h1 h2
        injection h2 with h2
        subst h2
        subst h1
        subst ho2
        rw [hnsnext] at hread2 ⊢
        refine ⟨adjustOffset r m, ?_, adjustOffset_value _ _⟩
        set fs := (ls ++ [ns]).set l.segments.length seg2' with hfs
        have hfslen : fs.length = l.segments.length + 1 := by
          rw [hfs]
          simp [hlslen]
        set L : Log := Log.mk l.config l.segments.length fs with hL
        have hjlt : l.segments.length < L.segments.length := by
          show l.segments.length < fs.length
          omega
        have hjget : L.segments[l.segments.length] = seg2' := by
          show fs[l.segments.length] = seg2'
          simp only [hfs]
          exact List.getElem_set_self (by simp [hlslen])
        have hbase2 : seg2'.base_offset = m := by rw [hseq2, hnsbase]
        have hnext2 : seg2'.next_offset = m + 1 := by rw [hseq2, hnsnext]
        have hmj : segMatches m (L.segments[l.segments.length]) = true := by
          rw [hjget]
          unfold segMatches
          rw [hbase2, hnext2]
          simp
        have hb : ∀ k, (hk : k < L.segments.length) → k < l.segments.length →
            segMatches m (L.segments[k]) = false := by
          intro k hk hkj
          have hk' : k < l.segments.length := hkj
          have heq : L.segments[k] = l.segments[k] := by
            show fs[k] = l.segments[k]
            simp only [hfs]
            rw [List.getElem_set_ne (by omega) (by simp [hlslen]; omega)]
            rw [List.getElem_append_left (by omega)]
            simp only [hls]
            by_cases hka : k = l.active_segment
            · subst hka
              exact List.getElem_set_self (by simpa using hlt)
            · exact List.getElem_set_ne (by omega) (by simpa using hk')
          rw [heq]
          have hWFk := hsegs _ (List.getElem_mem hk')
          have hnk : ¬(m < l.segments[k].next_offset) := by
            by_cases hka : k = l.active_segment
            · subst hka
              omega
            · have hp := List.pairwise_iff_getElem.mp hpair k l.active_segment
                hk' hlt (by omega)
              omega
          unfold segMatches
          rw [decide_eq_false hnk, Bool.and_false]
        have hrd := log_read_at L l.segments.length m hjlt hmj hb
        rw [hrd, hjget, hread2]
      | error e2 =>
        have hA2 : (Log.mk l.config l.segments.length
            ((ls ++ [ns]).set l.segments.length seg2'),
            (Except.error (LogError.SegmentErrors e2) : Except LogError Nat))
            = (l', .ok O) := hA
        exact absurd (congrArg Prod.snd hA2) (by simp)
    | SegmentPathNotADirectory => simp at h
    | IndexErrors e0 => simp at h
    | StoreErrors e0 => simp at h
    | IOError => simp at h
    | DecodeError => simp at h
    | EncodeError => simp at h

/-! ## Offset bookkeeping for runs of appends -/

lemma segment_append_ok_next (cfg : Config) (s : Segment) (r : Record)
    (s' : Segment) (o : Nat) (h : Segment.append cfg s r = (s', .ok o)) :
    o = s.next_offset ∧ s'.next_offset = s.next_offset + 1 := by
  obtain ⟨h1, -, -, h4⟩ := segment_append_ok_elim _ _ _ _ _ h
  exact ⟨h1, by rw [h4]⟩

lemma append_ok_step (l : Log) (r : Record) (l' : Log) (o : Nat)
    (hne : l.segments ≠ []) (hact : l.active_segment = l.segments.length - 1)
    (h : l.append r = (l', .ok o)) :
    o = (l.segments.getD l.active_segment default).next_offset ∧
    l'.segments ≠ [] ∧ l'.active_segment = l'.segments.length - 1 ∧
    (l'.segments.getD l'.active_segment default).next_offset = o + 1 := by
  have hnpos : 0 < l.segments.length := List.length_pos.mpr hne
  have hlt : l.active_segment < l.segments.length := by omega
  have hgetD : l.segments.getD l.active_segment default =
      l.segments[l.active_segment] := getD_eq_getElem _ _ _ hlt
  unfold Log.append at h
  by_cases hsz : l.config.max_record_size_kb < r.value.length
  · rw [if_pos hsz] at h
    exact absurd (congrArg Prod.snd h) (by simp)
  rw [if_neg hsz] at h
  rw [hgetD] at h
  rcases hres : Segment.append l.config l.segments[l.active_segment] r
    with ⟨seg', res⟩
  rw [hres] at h
  cases res with
  | ok offset =>
    have hA : Log.afterOk l seg' offset = (l', .ok o) := h
    clear h
    obtain ⟨ho1, hnx⟩ := segment_append_ok_next _ _ _ _ _ hres
    simp only [Log.afterOk] at hA
    by_cases hmax : Segment.isMaxed l.config seg' = true
    · rw [if_pos hmax] at hA
      injection hA with h1 h2
      injection h2 with h2
      subst h2
      subst h1
      refine ⟨by rw [hgetD]; exact ho1, ?_, ?_, ?_⟩
      · show l.segments.set l.active_segment seg' ++
          [mkSegment l.config [] [] (offset + 1)] ≠ []
        simp
      · show (l.segments.set l.active_segment seg').length =
          ((l.segments.set l.active_segment seg') ++
            [mkSegment l.config [] [] (offset + 1)]).length - 1
        simp
      · show ((l.segments.set l.active_segment seg' ++
            [mkSegment l.config [] [] (offset + 1)]).getD
            (l.segments.set l.active_segment seg').length
            default).next_offset = offset + 1
        rw [getD_append_length _ [] _ _, mkSegment_empty]
    · rw [if_neg hmax] at hA
      injection hA with h1 h2
      injection h2 with h2
      subst h2
      subst h1
      refine ⟨by rw [hgetD]; exact ho1, ?_, ?_, ?_⟩
      · show l.segments.set l.active_segment seg' ≠ []
        intro hc
        have hlc := congrArg List.length hc
        rw [List.length_set] at hlc
        simp only [List.length_nil] at hlc
        omega
      · show l.active_segment = (l.segments.set l.active_segment seg').length - 1
        rw [List.length_set]
        exact hact
      · show ((l.segments.set l.active_segment seg').getD l.active_segment
          default).next_offset = offset + 1
        rw [getD_set_eq _ _ _ _ hlt, hnx, ← ho1]
  | error e =>
    cases e with
    | StoreFull rec =>
      have hA : Log.appendRetry
          { l with segments := l.segments.set l.active_segment seg' } rec
          = (l', .ok o) := h
      clear h
      obtain ⟨hseq, hrecdef, hcanf⟩ := segment_append_storefull_elim _ _ _ _ _ hres
      subst hseq
      simp only [Log.appendRetry, Log.newSegment] at hA
      rw [getD_set_eq _ _ _ _ hlt] at hA
      rw [List.length_set] at hA
      set m := l.segments[l.active_segment].next_offset with hm0
      set ls := l.segments.set l.active_segment l.segments[l.active_segment]
        with hls
      have hlslen : ls.length = l.segments.length := by
        rw [hls, List.length_set]
      set ns := mkSegment l.config [] [] m with hns
      have hseg2 : ((ls ++ [ns]).getD l.segments.length default) = ns := by
        rw [← hlslen]
        exact getD_append_length ls [] ns default
      rw [hseg2] at hA
      have hnsnext : ns.next_offset = m := by rw [hns, mkSegment_empty]
      rcases hres2 : Segment.append l.config ns rec with ⟨seg2', res2⟩
      rw [hres2] at hA
      cases res2 with
      | ok r2 =>
        have hA2 : (Log.mk l.config l.segments.length
            ((ls ++ [ns]).set l.segments.length seg2'),
            (Except.ok r2 : Except LogError Nat)) = (l', .ok o) := hA
        clear hA
        obtain ⟨ho2, hnx2⟩ := segment_append_ok_next _ _ _ _ _ hres2
        injection hA2 with h1 h2
        injection h2 with h2
        subst h2
        subst h1
        have hsetlen : ((ls ++ [ns]).set l.segments.length seg2').length =
            l.segments.length + 1 := by
          simp [hlslen]
        refine ⟨by rw [hgetD, ho2, hnsnext, hm0], ?_, ?_, ?_⟩
        · intro hc
          have hlc := congrArg List.length hc
          rw [hsetlen] at hlc
          simp only [List.length_nil] at hlc
          omega
        · show l.segments.length =
            ((ls ++ [ns]).set l.segments.length seg2').length - 1
          omega
        · show (((ls ++ [ns]).set l.segments.length seg2').getD
            l.segments.length default).next_offset = r2 + 1
          rw [getD_set_eq _ _ _ _ (by simp [hlslen]), hnx2, ho2]
      | error e2 =>
        have hA2 : (Log.mk l.config l.segments.length
            ((ls ++ [ns]).set l.segments.length seg2'),
            (Except.error (LogError.SegmentErrors e2) : Except LogError Nat))
            = (l', .ok o) := hA
        exact absurd (congrArg Prod.snd hA2) (by simp)
    | SegmentPathNotADirectory => simp at h
    | IndexErrors e0 => simp at h
    | StoreErrors e0 => simp at h
    | IOError => simp at h
    | DecodeError => simp at h
    | EncodeError => simp at h

lemma runAppends_offsets (rs : List Record) :
    ∀ (l : Log) (os : List Nat) (lf : Log),
      l.segments ≠ [] → l.active_segment = l.segments.length - 1 →
      Log.runAppends l rs = .ok (os, lf) →
      os = List.range'
        (l.segments.getD l.active_segment default).next_offset rs.length := by
  induction rs with
  | nil =>
    intro l os lf h1 h2 h
    unfold Log.runAppends at h
    injection h with h
    injection h with h3 h4
    simp [← h3]
  | cons r rs ih =>
    intro l os lf h1 h2 h
    unfold Log.runAppends at h
    rcases happ : l.append r with ⟨l1, res⟩
    rw [happ] at h
    cases res with
    | ok o =>
      have hB : (Log.runAppends l1 rs).map (fun pr => (o :: pr.1, pr.2))
          = Except.ok (os, lf) := h
      clear h
      cases hrun : Log.runAppends l1 rs with
      | ok p =>
        rw [hrun] at hB
        simp only [Except.map] at hB
        injection hB with hB2
        injection hB2 with hx hy
        obtain ⟨hstep1, hstep2, hstep3, hstep4⟩ :=
          append_ok_step l r l1 o h1 h2 happ
        have hih := ih l1 p.1 p.2 hstep2 hstep3 (by rw [hrun])
        rw [hstep4] at hih
        simp only [List.length_cons]
        rw [← hx, hih, List.range'_succ, hstep1]
      | error e =>
        rw [hrun] at hB
        simp [Except.map] at hB
    | error e =>
      cases h

/-- C2: a run of N successful appends on a fresh log built on an empty
directory with initial_offset B returns exactly the offsets
B, B + 1, ..., B + N - 1 in order. -/
theorem run_appends_offsets_from_empty (cfg : Config) (rs : List Record)
    (os : List Nat) (lf : Log)
    (h : Log.runAppends (mkLog cfg) rs = .ok (os, lf)) :
    os = List.range' cfg.initial_offset rs.length := by
  have h1 : (mkLog cfg).segments ≠ [] := by
    simp [mkLog, Log.newSegment]
  have h2 : (mkLog cfg).active_segment = (mkLog cfg).segments.length - 1 := by
    simp [mkLog, Log.newSegment]
  have h3 : ((mkLog cfg).segments.getD (mkLog cfg).active_segment
      default).next_offset = cfg.initial_offset := by
    show ((([] : List Segment) ++ [mkSegment cfg [] [] cfg.initial_offset]).getD
      0 default).next_offset = cfg.initial_offset
    rw [List.nil_append]
    rw [show (([mkSegment cfg [] [] cfg.initial_offset] : List Segment).getD 0
      default) = mkSegment cfg [] [] cfg.initial_offset from rfl]
    rw [mkSegment_empty]
  have hmain := runAppends_offsets rs (mkLog cfg) os lf h1 h2 h
  rwa [h3] at hmain

/-! ## Remaining claims -/

/-- C3: evaluating Segment::new on a directory whose index file holds three
entries with relative offsets 0, 1, 2 and base_offset 16: the source sets
next_offset to last relative offset + 1 = 3, not to
relative + 1 + base_offset = 19 as specified. -/
theorem segment_new_drops_base_offset :
    (mkSegment ⟨36, 1024, 0, 400⟩ []
      (beBytes 4 0 ++ beBytes 8 0 ++ beBytes 4 1 ++ beBytes 8 24 ++
        beBytes 4 2 ++ beBytes 8 48) 16).next_offset = 3 ∧
    ¬((3 : Nat) = 2 + 1 + 16) := by decide

/-- C4: Log::truncate collects indices first and then calls Vec::remove on
each while the vector shifts: on segments with next_offsets 1, 2, 5,
truncate(1) keeps the segment with next_offset 2 (which satisfies
next_offset ≤ lowest + 1 and should have been dropped) and drops the segment
with next_offset 5 (which should have been kept). -/
theorem truncate_shifted_indices :
    (Log.truncate
      ⟨⟨36, 100, 0, 400⟩, 2,
        [⟨⟨[], 0⟩, ⟨[], 0⟩, 0, 1⟩, ⟨⟨[], 0⟩, ⟨[], 0⟩, 1, 2⟩,
         ⟨⟨[], 0⟩, ⟨[], 0⟩, 2, 5⟩]⟩ 1).map
      (fun lg => lg.segments.map (fun s => s.next_offset)) = some [2] ∧
    (2 : Nat) ≤ 1 + 1 := by decide

/-- C5 counterexample: appending a record whose offset the caller already set
to 5 onto a fresh segment with next_offset 0 returns offset 0, but the stored
(and re-read) record keeps offset 5 - the caller-supplied offset is not
overwritten by the segment's assignment. -/
theorem segment_append_keeps_caller_offset :
    (Segment.append ⟨36, 100, 0, 400⟩ (mkSegment ⟨36, 100, 0, 400⟩ [] [] 0)
      ⟨[1], some 5⟩).2 = .ok 0 ∧
    (Segment.append ⟨36, 100, 0, 400⟩ (mkSegment ⟨36, 100, 0, 400⟩ [] [] 0)
      ⟨[1], some 5⟩).1.read 0 = .ok ⟨[1], some 5⟩ ∧
    ¬((⟨[1], some 5⟩ : Record) = ⟨[1], some 0⟩) := by decide

/-- C5 amended: Segment::append always returns the segment's own next_offset,
but the offset stored in the encoded record is the caller's offset when one
was supplied, and the segment's assignment only when the caller left it
unset. -/
theorem segment_append_offset_assignment (cfg : Config) (s : Segment)
    (r : Record) (s' : Segment) (o : Nat)
    (h : Segment.append cfg s r = (s', .ok o)) :
    o = s.next_offset ∧
    s'.store.contents = s.store.contents ++
      beBytes 8 (encodeRecord (adjustOffset r s.next_offset)).length ++
      encodeRecord (adjustOffset r s.next_offset) ∧
    (adjustOffset r s.next_offset).offset =
      some (r.offset.getD s.next_offset) := by
  obtain ⟨h1, -, -, h4⟩ := segment_append_ok_elim _ _ _ _ _ h
  refine ⟨h1, by rw [h4], ?_⟩
  unfold adjustOffset
  rcases r with ⟨v, oo⟩
  cases oo <;> simp

theorem segment_append_offset_assignment_witness :
    ∃ s' : Segment, ∃ o : Nat,
      Segment.append ⟨36, 100, 0, 400⟩ (mkSegment ⟨36, 100, 0, 400⟩ [] [] 0)
        ⟨[1], some 5⟩ = (s', .ok o) ∧ o = 0 ∧
      (adjustOffset (⟨[1], some 5⟩ : Record) 0).offset = some 5 := by
  have h2 : (Segment.append ⟨36, 100, 0, 400⟩
      (mkSegment ⟨36, 100, 0, 400⟩ [] [] 0) ⟨[1], some 5⟩).2 = .ok 0 := by
    decide
  have happ : Segment.append ⟨36, 100, 0, 400⟩
      (mkSegment ⟨36, 100, 0, 400⟩ [] [] 0) ⟨[1], some 5⟩ =
      ((Segment.append ⟨36, 100, 0, 400⟩
        (mkSegment ⟨36, 100, 0, 400⟩ [] [] 0) ⟨[1], some 5⟩).1, .ok 0) := by
    rw [← h2]
  obtain ⟨ha, hb, hc⟩ := segment_append_offset_assignment _ _ _ _ _ happ
  refine ⟨_, 0, happ, rfl, by decide⟩

/-- C7: Index::write fails with IndexFull exactly when size + 12 would exceed
the mapping length, leaving size and mapping unchanged on failure; otherwise
it writes the 12-byte big-endian entry at byte offset size and advances size
by exactly 12, leaving the bytes before size untouched. -/
theorem index_write_spec (i : Index) (ro pos : Nat) :
    (i.mmap.length < i.size + 12 →
      i.write ro pos = (i, .error .IndexFullError)) ∧
    (i.size + 12 ≤ i.mmap.length →
      (i.write ro pos).2 = .ok () ∧
      (i.write ro pos).1.size = i.size + 12 ∧
      (i.write ro pos).1.mmap.length = i.mmap.length ∧
      sliceGet (i.write ro pos).1.mmap i.size 12 =
        beBytes 4 ro ++ beBytes 8 pos ∧
      sliceGet (i.write ro pos).1.mmap 0 i.size =
        sliceGet i.mmap 0 i.size) := by
  constructor
  · intro hfull
    unfold Index.write
    rw [if_pos hfull]
  · intro hle
    have hnot : ¬(i.mmap.length < i.size + 12) := by omega
    have hm1len : (writeBytesAt i.mmap i.size (beBytes 4 ro)).length =
        i.mmap.length := by
      rw [writeBytesAt_length]
      rw [beBytes_length]
      omega
    have hself4 := sliceGet_writeBytesAt_self i.mmap (beBytes 4 ro) i.size
      (by rw [beBytes_length]; omega)
    rw [beBytes_length] at hself4
    have hself8 := sliceGet_writeBytesAt_self
      (writeBytesAt i.mmap i.size (beBytes 4 ro)) (beBytes 8 pos) (i.size + 4)
      (by rw [hm1len, beBytes_length]; omega)
    rw [beBytes_length] at hself8
    unfold Index.write
    rw [if_neg hnot]
    refine ⟨rfl, rfl, ?_, ?_, ?_⟩
    · show (writeBytesAt (writeBytesAt i.mmap i.size (beBytes 4 ro))
        (i.size + 4) (beBytes 8 pos)).length = i.mmap.length
      rw [writeBytesAt_length, hm1len]
      rw [hm1len, beBytes_length]
      omega
    · show sliceGet (writeBytesAt (writeBytesAt i.mmap i.size (beBytes 4 ro))
        (i.size + 4) (beBytes 8 pos)) i.size 12 =
        beBytes 4 ro ++ beBytes 8 pos
      rw [show (12 : Nat) = 4 + 8 from rfl, sliceGet_add]
      rw [sliceGet_writeBytesAt_before _ _ _ _ _ (by omega)
        (by rw [hm1len]; omega)]
      rw [hself4, hself8]
    · show sliceGet (writeBytesAt (writeBytesAt i.mmap i.size (beBytes 4 ro))
        (i.size + 4) (beBytes 8 pos)) 0 i.size = sliceGet i.mmap 0 i.size
      rw [sliceGet_writeBytesAt_before _ _ _ _ _ (by omega)
        (by rw [hm1len]; omega)]
      rw [sliceGet_writeBytesAt_before _ _ _ _ _ (by omega) (by omega)]

theorem index_write_spec_witness :
    Index.write ⟨List.replicate 10 0, 0⟩ 1 2 =
      (⟨List.replicate 10 0, 0⟩, .error .IndexFullError) :=
  (index_write_spec ⟨List.replicate 10 0, 0⟩ 1 2).1 (by decide)

def isStoreNotFound : Except StoreError (List Nat) → Bool
  | .error (.StoreEntryNotFound _) => true
  | _ => false

/-- C8 counterexample: reading position 1 of an empty store (size 0) fails
with the IO error of read_exact_at, not with a NotFound error. -/
theorem store_read_beyond_size_io :
    Store.read ⟨[], 0⟩ 1 = .error .IOError ∧
    isStoreNotFound (Store.read ⟨[], 0⟩ 1) = false := by decide

/-- C8 amended: for positions strictly beyond size, Store::read fails with
the IO error of the short read_exact_at; Store::read itself never produces
StoreEntryNotFound - Segment::read wraps any failed store read in that
error. -/
theorem store_read_beyond_size (st : Store) (position : Nat)
    (hsz : st.size = st.contents.length) (hpos : st.size < position) :
    Store.read st position = .error .IOError := by
  unfold Store.read
  rw [if_pos (by omega)]

theorem store_read_beyond_size_witness :
    Store.read ⟨[7], 1⟩ 2 = .error .IOError :=
  store_read_beyond_size ⟨[7], 1⟩ 2 rfl (by decide)

/-- C9 counterexample: on a freshly constructed log at initial_offset 0 the
only segment has next_offset 0, and highest_offset computes 0 - 1 in u64,
wrapping to 2^64 - 1 instead of being an exact subtraction. -/
theorem highest_offset_underflow :
    Log.highestOffset (mkLog ⟨36, 100, 0, 400⟩) = 18446744073709551615 ∧
    ((mkLog ⟨36, 100, 0, 400⟩).segments.getLast?.map
      (fun s => s.next_offset)) = some 0 ∧
    ¬(18446744073709551615 + 1 = 0) := by decide

/-- C9 amended: highest_offset returns last next_offset - 1 only when
next_offset ≥ 1; it returns 0 when there are no segments; and on a last
segment with next_offset = 0 (a fresh empty log) the u64 subtraction wraps
to 2^64 - 1 (debug builds panic instead). -/
theorem highest_offset_spec (l : Log) :
    (l.segments.getLast? = none → l.highestOffset = 0) ∧
    (∀ s, l.segments.getLast? = some s → 1 ≤ s.next_offset →
      s.next_offset ≤ U64 → l.highestOffset = s.next_offset - 1) ∧
    (∀ s, l.segments.getLast? = some s → s.next_offset = 0 →
      l.highestOffset = U64 - 1) := by
  refine ⟨?_, ?_, ?_⟩
  · intro h
    unfold Log.highestOffset
    simp only [h]
  · intro s h h1 h2
    unfold Log.highestOffset
    simp only [h]
    unfold u64sub
    have heq : s.next_offset + U64 - 1 = (s.next_offset - 1) + U64 := by omega
    rw [heq, Nat.add_mod_right, Nat.mod_eq_of_lt (by omega)]
  · intro s h h0
    unfold Log.highestOffset
    simp only [h, h0]
    decide

theorem highest_offset_spec_witness :
    Log.highestOffset ⟨⟨36, 100, 0, 400⟩, 0, [⟨⟨[], 0⟩, ⟨[], 0⟩, 0, 3⟩]⟩
      = 2 :=
  (highest_offset_spec ⟨⟨36, 100, 0, 400⟩, 0,
    [⟨⟨[], 0⟩, ⟨[], 0⟩, 0, 3⟩]⟩).2.1 ⟨⟨[], 0⟩, ⟨[], 0⟩, 0, 3⟩ rfl
    (by decide) (by decide)

/-- C6 counterexample: on a log holding one record at offset 0, reading the
uncontained offset 2^62 wraps the u64 index computation
(2^62 * 12 = 3 * 2^64 ≡ 0 mod 2^64) into a valid index slot and returns the
record stored at offset 0 instead of failing with IndexEntryNotFound. -/
theorem log_read_uncontained_wraps :
    (((mkLog ⟨36, 100, 0, 400⟩).append ⟨[1], none⟩).1.segments.all
      (fun s => !segMatches 4611686018427387904 s)) = true ∧
    ((mkLog ⟨36, 100, 0, 400⟩).append ⟨[1], none⟩).1.read 4611686018427387904
      = .ok ⟨[1], some 0⟩ := by decide

lemma index_read_none (i : Index) (p : Nat)
    (h : i.size ≤ (p * 12) % U64) : i.read p = none := by
  unfold Index.read
  by_cases hz : i.size = 0
  · rw [if_pos hz]
  · rw [if_neg hz]
    show (if i.size ≤ (p * 12) % U64 then none
      else some (IndexEntry.mk (beRead (sliceGet i.mmap ((p * 12) % U64) 4))
        (beRead (sliceGet i.mmap ((p * 12) % U64 + 4) 8)))) = none
    rw [if_pos h]

/-- C6 amended: reading an offset contained in no segment delegates to the
first segment and fails with its IndexEntryNotFound, provided the relative
offset times 12 does not wrap modulo 2^64; for offsets whose scaled relative
offset wraps (release-mode u64 arithmetic), the read can instead return an
unrelated record, as the counterexample shows. -/
theorem log_read_uncontained (l : Log) (O : Nat)
    (hWF : WFLog l)
    (hnone : ∀ s ∈ l.segments, segMatches O s = false)
    (hbase : (l.segments.getD 0 default).base_offset ≤ O)
    (hO : O < U64)
    (hnowrap : (O - (l.segments.getD 0 default).base_offset) * 12 < U64) :
    l.read O = .error (.SegmentErrors (.IndexErrors (.IndexEntryNotFound
      ((O - (l.segments.getD 0 default).base_offset) % U32)))) := by
  obtain ⟨hne, hact, hsegs, hpair, hcfg1, hcfg2⟩ := hWF
  have hnpos : 0 < l.segments.length := List.length_pos.mpr hne
  have hgd : l.segments.getD 0 default = l.segments[0] :=
    getD_eq_getElem _ _ _ hnpos
  rw [hgd] at hbase hnowrap ⊢
  obtain ⟨hs1, hs2, hs3, hs4, hs5, hs6⟩ := hsegs _ (List.getElem_mem hnpos)
  have hpos : u64sub O l.segments[0].base_offset =
      O - l.segments[0].base_offset := u64sub_eq_sub _ _ hbase hO
  have hge : l.segments[0].index.size ≤
      ((O - l.segments[0].base_offset) * 12) % U64 := by
    rw [Nat.mod_eq_of_lt hnowrap]
    have hmm := hnone _ (List.getElem_mem hnpos)
    unfold segMatches at hmm
    rw [decide_eq_true hbase, Bool.true_and] at hmm
    have hnlt : ¬(O < l.segments[0].next_offset) := of_decide_eq_false hmm
    rw [hs5]
    have hle : l.segments[0].next_offset - l.segments[0].base_offset ≤
        O - l.segments[0].base_offset := by omega
    calc 12 * (l.segments[0].next_offset - l.segments[0].base_offset)
        ≤ 12 * (O - l.segments[0].base_offset) := Nat.mul_le_mul_left _ hle
      _ = (O - l.segments[0].base_offset) * 12 := Nat.mul_comm _ _
  have hidxnone : Index.read l.segments[0].index
      (O - l.segments[0].base_offset) = none := index_read_none _ _ hge
  have hsegread : l.segments[0].read O = .error (.IndexErrors
      (.IndexEntryNotFound ((O - l.segments[0].base_offset) % U32))) := by
    unfold Segment.read
    simp only [hpos, hidxnone]
  unfold Log.read
  rw [findSegmentIdx_none O l.segments hnone 0]
  simp only [getD_eq_getElem _ _ _ hnpos]
  rw [hsegread]

theorem log_read_uncontained_witness :
    (mkLog ⟨36, 100, 0, 400⟩).read 1 = .error (.SegmentErrors (.IndexErrors
      (.IndexEntryNotFound 1))) := by
  have h := log_read_uncontained (mkLog ⟨36, 100, 0, 400⟩) 1 (by decide)
    (by decide) (by decide) (by decide) (by decide)
  exact h

lemma segment_append_storefull_intro (cfg : Config) (s : Segment) (r : Record)
    (hcs : canStoreRecord cfg s.store
      (encodeRecord (adjustOffset r s.next_offset)).length = false) :
    Segment.append cfg s r =
      (s, .error (.StoreFull (adjustOffset r s.next_offset))) := by
  unfold Segment.append
  simp only [hcs]
  rw [if_true]

/-- C10: when the active segment reports StoreFull and the encoded record
cannot fit even in an empty store (while passing the max_record_size_kb
check), Log::append creates exactly one new segment, retries exactly once,
and returns the StoreFull error to the caller while the newly created empty
segment remains in the segment list as the active segment - the log state is
not restored on this error path. -/
theorem append_storefull_retry_keeps_segment (l : Log) (r : Record)
    (hne : l.segments ≠ []) (hact : l.active_segment = l.segments.length - 1)
    (hlen : ¬l.config.max_record_size_kb < r.value.length)
    (hbig : l.config.max_store_bytes ≤
      (encodeRecord (adjustOffset r
        (l.segments.getD l.active_segment default).next_offset)).length + 8) :
    ∃ l'',
      l.append r = (l'', .error (.SegmentErrors (.StoreFull
        (adjustOffset r
          (l.segments.getD l.active_segment default).next_offset)))) ∧
      l''.segments.length = l.segments.length + 1 ∧
      l''.active_segment = l.segments.length ∧
      l''.segments.getD l''.active_segment default =
        mkSegment l.config [] []
          (l.segments.getD l.active_segment default).next_offset := by
  have hnpos : 0 < l.segments.length := List.length_pos.mpr hne
  have hlt : l.active_segment < l.segments.length := by omega
  set seg := l.segments.getD l.active_segment default with hseg
  set adj := adjustOffset r seg.next_offset with hadj
  have hcs1 : canStoreRecord l.config seg.store
      (encodeRecord adj).length = false := by
    unfold canStoreRecord
    exact decide_eq_false (by omega)
  have hfull1 := segment_append_storefull_intro l.config seg r (by
    rw [← hadj]; exact hcs1)
  rw [← hadj] at hfull1
  rcases happ : l.append r with ⟨l'', res⟩
  have happ2 := happ
  unfold Log.append at happ2
  rw [if_neg hlen, hfull1] at happ2
  have hA : Log.appendRetry
      { l with segments := l.segments.set l.active_segment seg } adj
      = (l'', res) := happ2
  clear happ2
  simp only [Log.appendRetry, Log.newSegment] at hA
  rw [getD_set_eq _ _ _ _ hlt, List.length_set] at hA
  set ls := l.segments.set l.active_segment seg with hls
  have hlslen : ls.length = l.segments.length := by rw [hls, List.length_set]
  set ns := mkSegment l.config [] [] seg.next_offset with hns
  have hseg2 : ((ls ++ [ns]).getD l.segments.length default) = ns := by
    rw [← hlslen]
    exact getD_append_length ls [] ns default
  rw [hseg2] at hA
  have hnst : ns.store = ⟨[], 0⟩ := by rw [hns, mkSegment_empty]
  have hcs2 : canStoreRecord l.config ns.store
      (encodeRecord (adjustOffset adj ns.next_offset)).length = false := by
    rw [hadj, adjustOffset_adjustOffset, hnst, ← hadj]
    unfold canStoreRecord
    refine decide_eq_false ?_
    show ¬((Store.mk [] 0).size + ((encodeRecord adj).length + 8) <
      l.config.max_store_bytes)
    show ¬(0 + ((encodeRecord adj).length + 8) < l.config.max_store_bytes)
    omega
  have hfull2 := segment_append_storefull_intro l.config ns adj hcs2
  rw [hadj, adjustOffset_adjustOffset, ← hadj] at hfull2
  rw [hfull2] at hA
  have hA2 : (Log.mk l.config l.segments.length
      ((ls ++ [ns]).set l.segments.length ns),
      (Except.error (LogError.SegmentErrors (SegmentError.StoreFull adj))
        : Except LogError Nat)) = (l'', res) := hA
  injection hA2 with h1 h2
  refine ⟨l'', ?_, ?_, ?_, ?_⟩
  · rw [← h2]
  · rw [← h1]
    show ((ls ++ [ns]).set l.segments.length ns).length =
      l.segments.length + 1
    simp [hlslen]
  · rw [← h1]
  · rw [← h1]
    show ((ls ++ [ns]).set l.segments.length ns).getD
      l.segments.length default = ns
    rw [getD_set_eq _ _ _ _ (by simp [hlslen])]

theorem append_storefull_retry_keeps_segment_witness :
    ∃ l'',
      (mkLog ⟨36, 8, 0, 400⟩).append ⟨[1], none⟩ =
        (l'', .error (.SegmentErrors (.StoreFull
          (adjustOffset ⟨[1], none⟩
            ((mkLog ⟨36, 8, 0, 400⟩).segments.getD
              (mkLog ⟨36, 8, 0, 400⟩).active_segment
              default).next_offset)))) ∧
      l''.segments.length = (mkLog ⟨36, 8, 0, 400⟩).segments.length + 1 ∧
      l''.active_segment = (mkLog ⟨36, 8, 0, 400⟩).segments.length ∧
      l''.segments.getD l''.active_segment default =
        mkSegment (mkLog ⟨36, 8, 0, 400⟩).config [] []
          ((mkLog ⟨36, 8, 0, 400⟩).segments.getD
            (mkLog ⟨36, 8, 0, 400⟩).active_segment default).next_offset :=
  append_storefull_retry_keeps_segment (mkLog ⟨36, 8, 0, 400⟩) ⟨[1], none⟩
    (by decide) (by decide) (by decide) (by decide)

theorem append_then_read_witness :
    ∃ l1 rec, (mkLog ⟨36, 100, 0, 400⟩).append ⟨[1], none⟩ = (l1, .ok 0) ∧
      l1.read 0 = .ok rec ∧ rec.value = [1] := by
  have h2 : ((mkLog ⟨36, 100, 0, 400⟩).append ⟨[1], none⟩).2 = .ok 0 := by
    decide
  have happ : (mkLog ⟨36, 100, 0, 400⟩).append ⟨[1], none⟩ =
      (((mkLog ⟨36, 100, 0, 400⟩).append ⟨[1], none⟩).1, .ok 0) := by
    rw [← h2]
  obtain ⟨rec, hr1, hr2⟩ := append_then_read _ _ _ _ (by decide) (by decide)
    happ
  exact ⟨_, rec, happ, hr1, hr2⟩

theorem run_appends_offsets_witness :
    ∃ os lf, Log.runAppends (mkLog ⟨36, 100, 0, 400⟩)
        [⟨[1], none⟩, ⟨[2], none⟩] = .ok (os, lf) ∧
      os = List.range' 0 2 := by
  cases hrun : Log.runAppends (mkLog ⟨36, 100, 0, 400⟩)
      [⟨[1], none⟩, ⟨[2], none⟩] with
  | ok p =>
    refine ⟨p.1, p.2, rfl, ?_⟩
    exact run_appends_offsets_from_empty ⟨36, 100, 0, 400⟩
      [⟨[1], none⟩, ⟨[2], none⟩] p.1 p.2 (by rw [hrun])
  | error e =>
    exfalso
    have hok : (Log.runAppends (mkLog ⟨36, 100, 0, 400⟩)
        [⟨[1], none⟩, ⟨[2], none⟩]).toOption.isSome = true := by decide
    rw [hrun] at hok
    simp [Except.toOption] at hok
